import Mathlib

/-!
Verification of the TRPO agent in `src/baselines/TRPO/agent.py` against its
natural-language specification.  The agent's numeric code (conjugate gradient,
backtracking line search, discounted-return accumulation, advantage
standardization, policy-gradient computation) is shallowly embedded over exact
rational arithmetic.  Vectors (torch 1-d tensors) are lists of rationals;
autodifferentiated scalars are value/gradient pairs (`Dual`); the square root
used for the Lagrange multiplier and the standard deviation, which is not
rational, is passed abstractly and constrained by its defining equation where
a theorem needs it.
-/

/-- A flat vector (torch 1-d tensor / flattened parameter vector). -/
abbrev Vec := List ℚ

/-- Elementwise addition of two vectors (torch `+`). -/
def vadd (a b : Vec) : Vec := List.zipWith (· + ·) a b

/-- Elementwise subtraction of two vectors (torch `-`). -/
def vsub (a b : Vec) : Vec := List.zipWith (· - ·) a b

/-- Scalar multiple of a vector (torch `scalar * tensor`). -/
def vsmul (c : ℚ) (v : Vec) : Vec := v.map (fun a => c * a)

/-- Elementwise negation of a vector (torch unary `-`). -/
def vneg (v : Vec) : Vec := v.map (fun a => -a)

/-- Dot product of two vectors (torch `a.dot(b)`). -/
def dot (a b : Vec) : ℚ := (List.zipWith (· * ·) a b).sum

/-- Mean of a list of rationals (torch `.mean()`); `0` on the empty list. -/
def qmean (l : List ℚ) : ℚ := l.sum / (l.length : ℚ)

/-- Unbiased sample variance (square of torch `.std()`, whose default is the
Bessel-corrected estimator with denominator `n - 1`). -/
def sampleVar (l : List ℚ) : ℚ :=
  ((l.map (fun a => (a - qmean l) ^ 2)).sum) / ((l.length : ℚ) - 1)

/-- Advantage standardization, from `agent.py` line 87:
`advantage = (advantage - advantage.mean()) / advantage.std()`.
The source divides unconditionally; `sigma` stands for `advantage.std()`
(the square root of `sampleVar`, which is not rational, hence passed
abstractly and constrained by `sigma * sigma = sampleVar x` in the theorems).
A zero divisor yields NaN in the source's floating-point arithmetic; the
fallible division is modeled by returning `none` in that case. -/
def standardizeAdv (x : List ℚ) (sigma : ℚ) : Option (List ℚ) :=
  if sigma = 0 then none else some (x.map (fun a => (a - qmean x) / sigma))

/-- Loop body of `Agent.cg` (`agent.py` lines 137-147), by structural recursion
on the remaining iteration count.  State: current solution `x`, residual `r`,
search direction `p`, and `rdotr = r·r`.  Each iteration applies the operator
once (`z = fvp(p)`), takes `v = rdotr / p·z`, updates `x += v p`, `r -= v z`,
recomputes `newrdotr`, sets `p = r + mu p` with `mu = newrdotr / rdotr`, and
breaks as soon as the updated `rdotr` is strictly below `tol`. -/
def cgLoop (fvp : Vec → Vec) (tol : ℚ) : Nat → Vec → Vec → Vec → ℚ → Vec
  | 0, x, _, _, _ => x
  | n + 1, x, r, p, rdotr =>
    let z := fvp p
    let v := rdotr / dot p z
    let x' := vadd x (vsmul v p)
    let r' := vsub r (vsmul v z)
    let newrdotr := dot r' r'
    let mu := newrdotr / rdotr
    let p' := vadd r' (vsmul mu p)
    if newrdotr < tol then x' else cgLoop fvp tol n x' r' p' newrdotr

/-- `Agent.cg` (`agent.py` lines 132-148): conjugate-gradient solve of
`fvp(x) = b` starting from `x = 0`, `r = p = b`, running at most `cg_iters`
iterations with early exit below `cg_tol`. -/
def cg (fvp : Vec → Vec) (b : Vec) (cg_iters : Nat) (cg_tol : ℚ) : Vec :=
  cgLoop fvp cg_tol cg_iters (List.replicate b.length 0) b b (dot b b)

/-- Instrumented copy of `cgLoop` that additionally returns the number of
operator (`fvp`) applications performed and the list of the `rdotr` values
computed by the executed iterations, in order. -/
def cgLoopT (fvp : Vec → Vec) (tol : ℚ) : Nat → Vec → Vec → Vec → ℚ → Vec × Nat × List ℚ
  | 0, x, _, _, _ => (x, 0, [])
  | n + 1, x, r, p, rdotr =>
    let z := fvp p
    let v := rdotr / dot p z
    let x' := vadd x (vsmul v p)
    let r' := vsub r (vsmul v z)
    let newrdotr := dot r' r'
    let mu := newrdotr / rdotr
    let p' := vadd r' (vsmul mu p)
    if newrdotr < tol then (x', 1, [newrdotr])
    else
      let rest := cgLoopT fvp tol n x' r' p' newrdotr
      (rest.1, rest.2.1 + 1, newrdotr :: rest.2.2)

/-- Instrumented `cg`: the solution, the number of operator applications, and
the full residual-dot-product trace (starting with the initial `b·b`). -/
def cgT (fvp : Vec → Vec) (b : Vec) (cg_iters : Nat) (cg_tol : ℚ) : Vec × Nat × List ℚ :=
  let rest := cgLoopT fvp cg_tol cg_iters (List.replicate b.length 0) b b (dot b b)
  (rest.1, rest.2.1, dot b b :: rest.2.2)

/-- The symmetric positive-definite test operator of the specification,
`A = [[3, 2], [2, 6]]`, as a matrix-vector product on 2-vectors. -/
def opA (v : Vec) : Vec :=
  [3 * v.getD 0 0 + 2 * v.getD 1 0, 2 * v.getD 0 0 + 6 * v.getD 1 0]

/-- The symmetric positive-definite diagonal operator `diag(1, 10, 100)` as a
matrix-vector product on 3-vectors; used to exhibit a non-monotone conjugate
gradient residual. -/
def opC (v : Vec) : Vec := [v.getD 0 0, 10 * v.getD 1 0, 100 * v.getD 2 0]

/-- Loop body of `Agent.line_search` (`agent.py` lines 150-160), by structural
recursion on the remaining attempt count; `i` is the current attempt index and
`fval` the (precomputed) surrogate loss at the starting point.  Attempt `i`
uses step fraction `0.5 ^ i`, candidate `x + stepfrac * fullstep`, and accepts
when the actual improvement is positive and the ratio of actual to expected
improvement exceeds `accRat` (the improvement accept threshold). -/
def lsLoop (f : Vec → ℚ) (x fullstep : Vec) (eir accRat fval : ℚ) : Nat → Nat → Bool × Vec
  | 0, _ => (false, x)
  | fuel + 1, i =>
    let stepfrac : ℚ := (1 / 2) ^ i
    let xi := vadd x (vsmul stepfrac fullstep)
    let actual_improve := fval - f xi
    if 0 < actual_improve ∧ accRat < actual_improve / (stepfrac * eir)
    then (true, xi)
    else lsLoop f x fullstep eir accRat fval fuel (i + 1)

/-- `Agent.line_search` (`agent.py` lines 150-160): backtracking line search
with exponentially shrinking step fractions `0.5 ^ i` for `i = 0, ...,
ls_iters - 1`; returns `(true, accepted candidate)` at the first acceptable
attempt and `(false, x)` when every attempt is rejected. -/
def line_search (f : Vec → ℚ) (x fullstep : Vec) (eir accRat : ℚ) (ls_iters : Nat) : Bool × Vec :=
  lsLoop f x fullstep eir accRat (f x) ls_iters 0

/-- Acceptance test of attempt `i` of the line search, as written in the
source's loop body: positive actual improvement, and actual over expected
improvement above the accept threshold. -/
def lsAccept (f : Vec → ℚ) (x fullstep : Vec) (eir accRat : ℚ) (i : Nat) : Prop :=
  let fval := f x
  let stepfrac : ℚ := (1 / 2) ^ i
  let xi := vadd x (vsmul stepfrac fullstep)
  0 < fval - f xi ∧ accRat < (fval - f xi) / (stepfrac * eir)

instance (f : Vec → ℚ) (x fullstep : Vec) (eir accRat : ℚ) (i : Nat) :
    Decidable (lsAccept f x fullstep eir accRat i) := by
  unfold lsAccept; infer_instance

/-- `numpy.allclose(pg, 0)` (`agent.py` line 100) with numpy's default
tolerances `rtol = 1e-5`, `atol = 1e-8`: since the comparison target is the
zero scalar, the `rtol` term vanishes and the test is `|a| ≤ 1e-8` for every
component. -/
def allcloseZero (v : Vec) : Bool := v.all (fun a => |a| ≤ 1 / 100000000)

/-- `Agent.get_loss` (`agent.py` lines 116-122): surrogate loss at candidate
parameters `theta`.  `pol` maps a policy parameter vector to the per-sample
action probabilities gathered on the batch (`model(b_s).gather(1, b_a)`);
`thetaLive` is the parameter vector of the live policy, whose probabilities
serve as `prob_old`; `prob_new` comes from a deep copy of the policy
instantiated with `theta`, so the computation reads but never writes the live
model — in this embedding it is a pure function. -/
def get_loss (pol : Vec → List ℚ) (advantage : List ℚ) (thetaLive theta : Vec) : ℚ :=
  -(qmean (List.zipWith (· * ·) (List.zipWith (· / ·) (pol theta) (pol thetaLive)) advantage))

/-- A scalar produced by the autodiff engine: its value together with its
gradient with respect to the flattened policy parameters (reverse-mode
autograd on the expression graphs appearing in `agent.py` lines 96-99 computes
exactly these pairs). -/
structure Dual where
  val : ℚ
  grad : Vec
deriving DecidableEq

/-- `tensor.detach()`: same value, disconnected from the graph, so its
gradient is zero. -/
def Dual.detach (d : Dual) : Dual := ⟨d.val, List.replicate d.grad.length 0⟩

/-- Product of a non-differentiable constant (`Variable(advantage)`) with a
graph scalar. -/
def Dual.constMul (a : ℚ) (d : Dual) : Dual := ⟨a * d.val, vsmul a d.grad⟩

/-- Quotient of two graph scalars, with the quotient-rule gradient. -/
def Dual.div (n d : Dual) : Dual :=
  ⟨n.val / d.val,
    vsmul (1 / (d.val * d.val)) (vsub (vsmul d.val n.grad) (vsmul n.val d.grad))⟩

/-- Quotient of a graph scalar by a non-differentiable constant. -/
def Dual.divC (d : Dual) (c : ℚ) : Dual := ⟨d.val / c, vsmul (1 / c) d.grad⟩

/-- Sum of a list of vectors of equal length (empty sum is the empty vector). -/
def vecSum : List Vec → Vec
  | [] => []
  | v :: vs => vs.foldl vadd v

/-- `.mean()` of a batch of graph scalars: mean of the values, with gradient
`(1/n) * (sum of the gradients)`. -/
def dmean (l : List Dual) : Dual :=
  ⟨qmean (l.map Dual.val), vsmul (1 / (l.length : ℚ)) (vecSum (l.map Dual.grad))⟩

/-- The surrogate objective of `agent.py` lines 96-98:
`new_probs = b_p.gather(1, b_a)` are the per-sample action probabilities
gathered from the probability tensors stored at collection time (`probs`,
as graph scalars), `old_probs = new_probs.detach()` is a detached copy of the
very same tensor, and `obj = (advantage * (new_probs / old_probs)).mean()`. -/
def surrogateObj (adv : List ℚ) (probs : List Dual) : Dual :=
  dmean (List.zipWith (fun a d => Dual.constMul a (Dual.div d (Dual.detach d))) adv probs)

/-- `agent.py` line 99: the flattened policy gradient
`pg = flatten_grad(policy.parameters(), -obj)`, i.e. the gradient of the
negative surrogate objective. -/
def pgComputed (adv : List ℚ) (probs : List Dual) : Vec :=
  vneg (surrogateObj adv probs).grad

/-- Modelled from the spec: the Policy Gradient Computer is specified as
computing "new action probabilities under the *current* policy parameters"
at update time, with the old per-step probabilities "captured at collection
time" as non-differentiable constants, and returning the flattened gradient
of the negative surrogate `mean(advantage * new_prob / old_prob)`.  `pol`
maps a parameter vector to the gathered per-sample probability scalars (with
their gradients) at those parameters, `thetaCur` is the parameter vector
current at update time, and `oldVals` the collection-time probabilities. -/
def surrogateObjSpec (adv : List ℚ) (pol : Vec → List Dual) (thetaCur : Vec)
    (oldVals : List ℚ) : Dual :=
  dmean (List.zipWith (fun (ad : ℚ × Dual) o => Dual.constMul ad.1 (Dual.divC ad.2 o))
    (adv.zip (pol thetaCur)) oldVals)

/-- Modelled from the spec: flattened gradient of the negative spec-side
surrogate objective. -/
def pgSpec (adv : List ℚ) (pol : Vec → List Dual) (thetaCur : Vec) (oldVals : List ℚ) : Vec :=
  vneg (surrogateObjSpec adv pol thetaCur oldVals).grad

/-- A concrete one-parameter policy family used for refutations: the gathered
action probability at parameter vector `[t]` is `t ^ 2`, whose gradient is
`[2 t]`. -/
def sqPolicy (theta : Vec) : List Dual :=
  [⟨(theta.headD 0) ^ 2, [2 * theta.headD 0]⟩]

/-- The per-batch policy update of `Agent.learn` (`agent.py` lines 99-114) as
a transformation of the live policy's flattened parameter vector `theta`:
skip everything when the gradient is numerically zero; otherwise solve for
the step direction by conjugate gradient, scale it by the Lagrange multiplier
`lm = sqrt(shs / max_kl)` (the square root is not rational and is supplied as
the abstract capability `sqrtFn`), run the line search, and write the new
parameters back (`vector_to_parameters`) exactly when it reports success. -/
def policyUpdate (fvp : Vec → Vec) (lossF : Vec → ℚ) (sqrtFn : ℚ → ℚ)
    (cg_iters : Nat) (cg_tol max_kl accRat : ℚ) (ls_iters : Nat)
    (pg theta : Vec) : Vec :=
  if allcloseZero pg then theta
  else
    let stepdir := cg fvp (vneg pg) cg_iters cg_tol
    let shs := (1 / 2) * dot stepdir (fvp stepdir)
    let lm := sqrtFn (shs / max_kl)
    let fullstep := vsmul (1 / lm) stepdir
    let eir := (-(dot pg stepdir)) / lm
    let sn := line_search lossF theta fullstep eir accRat ls_iters
    if sn.1 then sn.2 else theta

/-- One step of the in-place discounted-return recursion of `Agent.learn`
(`agent.py` line 75): `trajectories[2][-i-1][0] += trajectories[2][-i][0] *
reward_gamma`, with Python's negative indices translated on a list of length
`n` to positions `n - i - 1` (written) and `n - i` (read). -/
def discountStep (g : ℚ) (l : List ℚ) (i : Nat) : List ℚ :=
  l.set (l.length - i - 1) (l.getD (l.length - i - 1) 0 + l.getD (l.length - i) 0 * g)

/-- The discounted-return loop of `Agent.learn` (`agent.py` lines 74-75):
`for i in xrange(1, episode_len)` applied to the flat reward list `l` after
an episode of length `episode_len` has been appended. -/
def discountRewards (g : ℚ) (l : List ℚ) (episode_len : Nat) : List ℚ :=
  (List.range' 1 (episode_len - 1)).foldl (discountStep g) l

/-- The reward part of trajectory collection (`agent.py` lines 59-75): each
episode's rewards are appended to the flat list, after which the in-place
discount loop runs with that episode's length. -/
def collectRewards (g : ℚ) (eps : List (List ℚ)) : List ℚ :=
  eps.foldl (fun acc ep => discountRewards g (acc ++ ep) ep.length) []

/-- Reference discounted returns of a single episode: each entry is its
reward plus `g` times the next entry's return, the return past the episode
end being `0`. -/
def returnsOf (g : ℚ) : List ℚ → List ℚ
  | [] => []
  | [r] => [r]
  | r :: s :: rest =>
    (r + g * ((returnsOf g (s :: rest)).headD 0)) :: returnsOf g (s :: rest)

/-! ### General helper lemmas -/

theorem returnsOf_length (g : ℚ) (l : List ℚ) : (returnsOf g l).length = l.length := by
  induction l with
  | nil => rfl
  | cons a rest ih =>
    cases rest with
    | nil => rfl
    | cons b t => simp only [returnsOf, List.length_cons] at ih ⊢; omega

theorem getD_zero_headD (l : List ℚ) (d : ℚ) : l.getD 0 d = l.headD d := by
  cases l <;> rfl

theorem getD_append_len (pre l : List ℚ) (d : ℚ) :
    (pre ++ l).getD pre.length d = l.getD 0 d := by
  rw [List.getD_append_right pre l d pre.length le_rfl, Nat.sub_self]

theorem set_append_len (pre l : List ℚ) (v : ℚ) :
    (pre ++ l).set pre.length v = pre ++ l.set 0 v := by
  rw [List.set_append]
  simp

/-- Core invariant of the in-place discount loop: run on a flat list that ends
with a (nonempty) episode `l`, it leaves the prefix untouched and replaces the
episode's rewards by their discounted returns. -/
theorem discount_main (g : ℚ) : ∀ (l pre : List ℚ), l ≠ [] →
    (List.range' 1 (l.length - 1)).foldl (discountStep g) (pre ++ l) = pre ++ returnsOf g l := by
  intro l
  induction l with
  | nil => intro pre h; exact absurd rfl h
  | cons a rest ih =>
    intro pre _
    cases rest with
    | nil => simp [returnsOf, List.range']
    | cons b t =>
      have hne : b :: t ≠ [] := by simp
      have hlen : (a :: b :: t).length - 1 = ((b :: t).length - 1) + 1 := by
        simp
      rw [hlen, List.range'_concat, List.foldl_append]
      have hpre : pre ++ a :: b :: t = (pre ++ [a]) ++ (b :: t) := by simp
      rw [hpre, ih (pre ++ [a]) hne]
      have hR : pre ++ [a] ++ returnsOf g (b :: t) = pre ++ ([a] ++ returnsOf g (b :: t)) := by
        simp
      have hRlen : (pre ++ [a] ++ returnsOf g (b :: t)).length
          = pre.length + (1 + (b :: t).length) := by
        simp [returnsOf_length]
        omega
      have hidx : 1 + 1 * ((b :: t).length - 1) = (b :: t).length := by
        simp
        omega
      simp only [List.foldl_cons, List.foldl_nil]
      rw [hidx]
      unfold discountStep
      rw [hRlen]
      have h1 : pre.length + (1 + (b :: t).length) - (b :: t).length - 1 = pre.length := by omega
      have h2 : pre.length + (1 + (b :: t).length) - (b :: t).length = pre.length + 1 := by omega
      rw [h1, h2, hR, set_append_len, getD_append_len]
      have h3 : (pre ++ ([a] ++ returnsOf g (b :: t))).getD (pre.length + 1) 0
          = (returnsOf g (b :: t)).getD 0 0 := by
        rw [List.getD_append_right _ _ _ _ (by simp)]
        have hx : pre.length + 1 - pre.length = 1 := by omega
        rw [hx]
        rcases hcons : returnsOf g (b :: t) with _ | ⟨x, xs⟩
        · exfalso
          have hl := returnsOf_length g (b :: t)
          rw [hcons] at hl
          simp at hl
        · rfl
      rw [h3]
      have h4 : ([a] ++ returnsOf g (b :: t)).set 0
            (([a] ++ returnsOf g (b :: t)).getD 0 0 + (returnsOf g (b :: t)).getD 0 0 * g)
          = returnsOf g (a :: b :: t) := by
        simp only [List.singleton_append, List.set_cons_zero, List.getD_cons_zero]
        rw [getD_zero_headD]
        simp only [returnsOf]
        ring_nf
      rw [h4]

theorem discountRewards_eq_returnsOf (g : ℚ) (l : List ℚ) :
    discountRewards g l l.length = returnsOf g l := by
  cases l with
  | nil => rfl
  | cons a rest =>
    have h := discount_main g (a :: rest) [] (by simp)
    simpa [discountRewards] using h

theorem discountRewards_append_pre (g : ℚ) (pre ep : List ℚ) :
    discountRewards g (pre ++ ep) ep.length = pre ++ discountRewards g ep ep.length := by
  cases ep with
  | nil => simp [discountRewards, List.range']
  | cons a rest =>
    rw [discountRewards_eq_returnsOf]
    have h := discount_main g (a :: rest) pre (by simp)
    simpa [discountRewards] using h

theorem getD_returnsOf (g : ℚ) : ∀ (l : List ℚ) (i : Nat),
    (returnsOf g l).getD i 0 = l.getD i 0 + g * (returnsOf g l).getD (i + 1) 0 := by
  intro l
  induction l with
  | nil => intro i; simp [returnsOf]
  | cons a rest ih =>
    intro i
    cases rest with
    | nil =>
      match i with
      | 0 => simp [returnsOf]
      | j + 1 => simp [returnsOf]
    | cons b t =>
      match i with
      | 0 =>
        simp only [returnsOf, List.getD_cons_zero, List.getD_cons_succ]
        rw [getD_zero_headD]
      | j + 1 =>
        simp only [returnsOf, List.getD_cons_succ]
        exact ih j

theorem collect_aux (g : ℚ) : ∀ (eps : List (List ℚ)) (acc : List ℚ),
    eps.foldl (fun acc ep => discountRewards g (acc ++ ep) ep.length) acc
      = acc ++ (eps.map (fun ep => discountRewards g ep ep.length)).flatten := by
  intro eps
  induction eps with
  | nil => intro acc; simp
  | cons e es ih =>
    intro acc
    simp only [List.foldl_cons, List.map_cons, List.flatten_cons]
    rw [discountRewards_append_pre, ih, List.append_assoc]

theorem sum_map_sub_const (l : List ℚ) (c : ℚ) :
    (l.map (fun a => a - c)).sum = l.sum - l.length * c := by
  induction l with
  | nil => simp
  | cons a t ih => simp [ih]; ring

theorem sum_map_mul_right (l : List ℚ) (f : ℚ → ℚ) (c : ℚ) :
    (l.map (fun a => f a * c)).sum = (l.map f).sum * c := by
  induction l with
  | nil => simp
  | cons a t ih => simp [ih]; ring

theorem lsLoop_accept (f : Vec → ℚ) (x fullstep : Vec) (eir accRat : ℚ) :
    ∀ (fuel i0 i : Nat), i0 ≤ i → i < i0 + fuel →
      lsAccept f x fullstep eir accRat i →
      (∀ j, i0 ≤ j → j < i → ¬ lsAccept f x fullstep eir accRat j) →
      lsLoop f x fullstep eir accRat (f x) fuel i0
        = (true, vadd x (vsmul ((1 / 2) ^ i) fullstep)) := by
  intro fuel
  induction fuel with
  | zero => intro i0 i h1 h2; omega
  | succ n ih =>
    intro i0 i h1 h2 hacc hmin
    rcases eq_or_lt_of_le h1 with heq | hlt
    · subst heq
      unfold lsAccept at hacc
      simp only [lsLoop]
      rw [if_pos hacc]
    · have hrej : ¬ lsAccept f x fullstep eir accRat i0 := hmin i0 le_rfl hlt
      unfold lsAccept at hrej
      simp only [lsLoop]
      rw [if_neg hrej]
      exact ih (i0 + 1) i (by omega) (by omega) hacc (fun j hj1 hj2 => hmin j (by omega) hj2)

theorem lsLoop_reject (f : Vec → ℚ) (x fullstep : Vec) (eir accRat : ℚ) :
    ∀ (fuel i0 : Nat),
      (∀ j, i0 ≤ j → j < i0 + fuel → ¬ lsAccept f x fullstep eir accRat j) →
      lsLoop f x fullstep eir accRat (f x) fuel i0 = (false, x) := by
  intro fuel
  induction fuel with
  | zero => intro i0 _; rfl
  | succ n ih =>
    intro i0 hall
    have hrej : ¬ lsAccept f x fullstep eir accRat i0 := hall i0 le_rfl (by omega)
    unfold lsAccept at hrej
    simp only [lsLoop]
    rw [if_neg hrej]
    exact ih (i0 + 1) (fun j hj1 hj2 => hall j (by omega) (by omega))

theorem vsub_replicate_zero (v : Vec) : vsub v (List.replicate v.length 0) = v := by
  induction v with
  | nil => rfl
  | cons a t ih =>
    simp only [vsub, List.replicate, List.zipWith_cons_cons, sub_zero] at ih ⊢
    rw [ih]

theorem div_detach_eq_divC (d : Dual) : Dual.div d (Dual.detach d) = Dual.divC d d.val := by
  unfold Dual.div Dual.detach Dual.divC
  simp only
  congr 1
  have hrep : vsmul d.val (List.replicate d.grad.length (0:ℚ)) = List.replicate d.grad.length 0 := by
    simp [vsmul, List.map_replicate]
  rw [hrep]
  have hlen : (vsmul d.val d.grad).length = d.grad.length := by simp [vsmul]
  rw [← hlen, vsub_replicate_zero]
  simp only [vsmul, List.map_map]
  congr 1
  funext a
  simp only [Function.comp]
  rcases eq_or_ne d.val 0 with h | h
  · rw [h]; ring_nf
  · field_simp
    ring

theorem zip_spec_eq (adv : List ℚ) : ∀ (ps : List Dual),
    List.zipWith (fun (ad : ℚ × Dual) o => Dual.constMul ad.1 (Dual.divC ad.2 o))
        (adv.zip ps) (ps.map Dual.val)
      = List.zipWith (fun a d => Dual.constMul a (Dual.div d (Dual.detach d))) adv ps := by
  induction adv with
  | nil => intro ps; simp
  | cons a t ih =>
    intro ps
    cases ps with
    | nil => simp
    | cons d ds =>
      simp only [List.zip_cons_cons, List.map_cons, List.zipWith_cons_cons]
      rw [div_detach_eq_divC, ih]

theorem val_zipWith_ratio (adv : List ℚ) : ∀ (ps : List Dual),
    adv.length = ps.length → (∀ d ∈ ps, d.val ≠ 0) →
    (List.zipWith (fun a d => Dual.constMul a (Dual.div d (Dual.detach d))) adv ps).map Dual.val
      = adv := by
  induction adv with
  | nil => intro ps _ _; simp
  | cons a t ih =>
    intro ps hlen hne
    cases ps with
    | nil => simp at hlen
    | cons d ds =>
      simp only [List.zipWith_cons_cons, List.map_cons]
      have hd : d.val ≠ 0 := hne d (by simp)
      have h1 : (Dual.constMul a (Dual.div d (Dual.detach d))).val = a := by
        simp [Dual.constMul, Dual.div, Dual.detach, div_self hd]
      rw [h1, ih ds (by simpa using hlen) (fun e he => hne e (by simp [he]))]

theorem cgLoopT_count_le (fvp : Vec → Vec) (tol : ℚ) :
    ∀ (fuel : Nat) (x r p : Vec) (rd : ℚ),
      (cgLoopT fvp tol fuel x r p rd).2.1 ≤ fuel := by
  intro fuel
  induction fuel with
  | zero => intro x r p rd; simp [cgLoopT]
  | succ n ih =>
    intro x r p rd
    simp only [cgLoopT]
    split
    · simp
    · simpa using ih _ _ _ _

theorem cgLoopT_trace_ge (fvp : Vec → Vec) (tol : ℚ) :
    ∀ (fuel : Nat) (x r p : Vec) (rd : ℚ) (j : Nat),
      j + 1 < (cgLoopT fvp tol fuel x r p rd).2.2.length →
      tol ≤ (cgLoopT fvp tol fuel x r p rd).2.2.getD j 0 := by
  intro fuel
  induction fuel with
  | zero => intro x r p rd j h; simp [cgLoopT] at h
  | succ n ih =>
    intro x r p rd j h
    simp only [cgLoopT] at h ⊢
    split
    · rename_i hc
      rw [if_pos hc] at h
      simp at h
    · rename_i hc
      rw [if_neg hc] at h
      simp only [List.length_cons] at h
      match j with
      | 0 => simpa using le_of_not_lt hc
      | k + 1 => simpa using ih _ _ _ _ k (by omega)

/-! ### Claim theorems -/

set_option maxHeartbeats 400000 in
theorem cg_stepA (tol : ℚ) (h2 : ¬ ((119952/6889 : ℚ) < tol)) :
    cgLoop opA tol 10 [0, 0] [2, -8] [2, -8] 68
      = cgLoop opA tol 9 [34/83, -136/83] [336/83, 84/83] [31416/6889, -7140/6889]
          (119952/6889) := by
  show cgLoop opA tol (9 + 1) [0, 0] [2, -8] [2, -8] 68 = _
  rw [cgLoop]
  norm_num [opA, dot, vadd, vsub, vsmul, h2]

set_option maxHeartbeats 400000 in
theorem cg_stepB (tol : ℚ) (h0 : 0 < tol) :
    cgLoop opA tol 9 [34/83, -136/83] [336/83, 84/83] [31416/6889, -7140/6889] (119952/6889)
      = [2, -2] := by
  show cgLoop opA tol (8 + 1) _ _ _ _ = _
  rw [cgLoop]
  norm_num [opA, dot, vadd, vsub, vsmul, h0]

/-- C1: Conjugate-gradient correctness.  For the symmetric positive-definite
operator `opA` (the matrix `[[3, 2], [2, 6]]`) and target `b = [2, -8]`, the
`cg` solver of `agent.py` with `cg_iters = 10` and any tolerance that is
positive and at most `1e-6` returns exactly `[2, -2]` (it converges in two
iterations in exact arithmetic, after which the residual is zero), hence each
component is within `1e-6` of the reference solution. -/
theorem cg_spd_test_correct (tol : ℚ) (h0 : 0 < tol) (h1 : tol ≤ 1/1000000) :
    cg opA [2, -8] 10 tol = [2, -2] ∧
    |(cg opA [2, -8] 10 tol).getD 0 0 - 2| ≤ 1/1000000 ∧
    |(cg opA [2, -8] 10 tol).getD 1 0 - (-2)| ≤ 1/1000000 := by
  have h2 : ¬ ((119952/6889 : ℚ) < tol) := by
    rw [not_lt]
    linarith
  have hinit : cg opA [2, -8] 10 tol = cgLoop opA tol 10 [0, 0] [2, -8] [2, -8] 68 := by
    norm_num [cg, dot, List.replicate]
  have hmain : cg opA [2, -8] 10 tol = [2, -2] := by
    rw [hinit, cg_stepA tol h2, cg_stepB tol h0]
  refine ⟨hmain, ?_, ?_⟩ <;> rw [hmain] <;> norm_num

/-- Witness for C1 at the concrete tolerance `1e-6`. -/
theorem cg_spd_test_correct_witness :
    cg opA [2, -8] 10 (1/1000000) = [2, -2] ∧
    |(cg opA [2, -8] 10 (1/1000000)).getD 0 0 - 2| ≤ 1/1000000 ∧
    |(cg opA [2, -8] 10 (1/1000000)).getD 1 0 - (-2)| ≤ 1/1000000 :=
  cg_spd_test_correct (1/1000000) (by norm_num) (by norm_num)

/-- C2: Line-search acceptance.  For every surrogate-loss function, starting
point, full step and expected improvement rate: (1) if attempt `i < ls_iters`
satisfies the acceptance test `lsAccept` and no earlier attempt does, then
`line_search` returns success with exactly the candidate
`x + 0.5 ^ i * fullstep`, whose surrogate loss is strictly lower than the loss
at `x`; (2) if no attempt below `ls_iters` satisfies the test, `line_search`
returns `(false, x)`. -/
theorem line_search_first_acceptance :
    (∀ (f : Vec → ℚ) (x fullstep : Vec) (eir accRat : ℚ) (n i : Nat),
      i < n → lsAccept f x fullstep eir accRat i →
      (∀ j, j < i → ¬ lsAccept f x fullstep eir accRat j) →
      line_search f x fullstep eir accRat n
          = (true, vadd x (vsmul ((1 / 2) ^ i) fullstep)) ∧
        f (vadd x (vsmul ((1 / 2) ^ i) fullstep)) < f x) ∧
    (∀ (f : Vec → ℚ) (x fullstep : Vec) (eir accRat : ℚ) (n : Nat),
      (∀ i, i < n → ¬ lsAccept f x fullstep eir accRat i) →
      line_search f x fullstep eir accRat n = (false, x)) := by
  constructor
  · intro f x fullstep eir accRat n i hi hacc hmin
    constructor
    · exact lsLoop_accept f x fullstep eir accRat n 0 i (Nat.zero_le i) (by omega) hacc
        (fun j _ hj => hmin j hj)
    · have hpos := hacc.1
      simp only [lsAccept] at hpos
      linarith
  · intro f x fullstep eir accRat n hall
    exact lsLoop_reject f x fullstep eir accRat n 0 (fun j _ hj => hall j (by omega))

/-- Witness for C2: a concrete accepted first attempt, and a concrete search
in which every attempt is rejected and the input point is returned. -/
theorem line_search_first_acceptance_witness :
    line_search (fun v => -(v.headD 0)) [0] [1] 1 (1/2) 3 = (true, [1]) ∧
    line_search (fun v => v.headD 0) [0] [1] 1 (1/2) 2 = (false, [0]) := by
  constructor
  · have h := line_search_first_acceptance.1 (fun v => -(v.headD 0)) [0] [1] 1 (1/2) 3 0
      (by norm_num) (by norm_num [lsAccept, vadd, vsmul]) (fun j hj => absurd hj (by omega))
    have hc : vadd [0] (vsmul ((1 / 2) ^ 0) [1]) = [1] := by norm_num [vadd, vsmul]
    rw [hc] at h
    exact h.1
  · refine line_search_first_acceptance.2 (fun v => v.headD 0) [0] [1] 1 (1/2) 2 ?_
    intro i hi
    norm_num [lsAccept, vadd, vsmul]

/-- C5: Discounted-return conversion.  After the in-place backward recursion
of `agent.py` lines 74-75 over one episode, every stored return equals its
immediate reward plus `g` times the following step's return (the return past
the episode end, read through `getD` with default `0`, is `0`, so the last
step's return is its raw reward); concretely, rewards `[1, 1, 1]` with
`g = 0.9` become `[2.71, 1.9, 1.0]`. -/
theorem discounted_return_recursion :
    (∀ (g : ℚ) (rs : List ℚ) (i : Nat),
        (discountRewards g rs rs.length).getD i 0
          = rs.getD i 0 + g * (discountRewards g rs rs.length).getD (i + 1) 0) ∧
    discountRewards (9/10) [1, 1, 1] 3 = [271/100, 19/10, 1] := by
  constructor
  · intro g rs i
    rw [discountRewards_eq_returnsOf]
    exact getD_returnsOf g rs i
  · norm_num [discountRewards, discountStep, List.range']

/-- C9: Episode-boundary invariant.  The backward discount loop run for the
episode appended at the tail of the flat reward list rewrites exactly the
entries of that episode — the prefix holding earlier episodes is returned
unchanged and the episode's new values depend only on the episode itself;
consequently collecting any sequence of episodes produces the concatenation
of the per-episode discounted returns, and for a length-1 episode the loop
performs no update at all. -/
theorem episode_boundary_invariant :
    (∀ (g : ℚ) (pre ep : List ℚ),
        discountRewards g (pre ++ ep) ep.length = pre ++ discountRewards g ep ep.length) ∧
    (∀ (g : ℚ) (eps : List (List ℚ)),
        collectRewards g eps = (eps.map (fun ep => discountRewards g ep ep.length)).flatten) ∧
    (∀ (g : ℚ) (l : List ℚ), discountRewards g l 1 = l) := by
  refine ⟨discountRewards_append_pre, ?_, ?_⟩
  · intro g eps
    simpa [collectRewards] using collect_aux g eps []
  · intro g l
    rfl

/-- C6 (corrected), counterexample: on the zero-variance batch `[1, 1]` the
advantage standardization of `agent.py` line 87 is neither skipped nor
guarded — the sample standard deviation is `0` (so `0` is the only value
`advantage.std()` can take) and the unconditional division by it is performed,
which the embedding records as `none` (NaN in the source's arithmetic).  Had
the standardization been "skipped or guarded" as the claim states, the result
would be a defined list. -/
theorem standardize_zero_variance_cex :
    sampleVar [1, 1] = 0 ∧ standardizeAdv [1, 1] 0 = none := by
  constructor
  · norm_num [sampleVar, qmean]
  · simp [standardizeAdv]

/-- C6 (amended): for every batch of length at least 2 whose sample variance
is nonzero (equivalently, whose standard deviation `sigma` with
`sigma * sigma = sampleVar x` is nonzero), the standardization succeeds and
the output has sample mean exactly `0` and sample variance exactly `1` (hence
sample standard deviation exactly `1`, within any tolerance); the
zero-variance case is an unguarded division by zero, see the counterexample. -/
theorem standardize_nonzero_variance (x : List ℚ) (sigma : ℚ) (hn : 2 ≤ x.length)
    (hs : sigma * sigma = sampleVar x) (h0 : sigma ≠ 0) :
    ∃ y, standardizeAdv x sigma = some y ∧ qmean y = 0 ∧ sampleVar y = 1 := by
  have hlen : ((x.length : ℚ)) ≠ 0 := by
    have h2 : (2:ℚ) ≤ (x.length : ℚ) := by exact_mod_cast hn
    linarith
  have hn1 : ((x.length : ℚ) - 1) ≠ 0 := by
    have h2 : (2:ℚ) ≤ (x.length : ℚ) := by exact_mod_cast hn
    linarith
  set y : List ℚ := x.map (fun a => (a - qmean x) / sigma) with hy
  have hdiv : (fun a : ℚ => (a - qmean x) / sigma) = fun a => (a - qmean x) * (1 / sigma) := by
    funext a
    rw [mul_one_div]
  have hsum0 : y.sum = 0 := by
    rw [hy, hdiv, sum_map_mul_right, sum_map_sub_const]
    have hz : x.sum - (x.length : ℚ) * qmean x = 0 := by
      rw [qmean]
      field_simp
    rw [hz, zero_mul]
  have hylen : y.length = x.length := by simp [hy]
  have hqy : qmean y = 0 := by
    rw [qmean, hsum0, zero_div]
  have hS : (x.map (fun a => (a - qmean x) ^ 2)).sum = sigma * sigma * ((x.length : ℚ) - 1) := by
    have h := hs
    rw [sampleVar, eq_div_iff hn1] at h
    linarith
  refine ⟨y, by simp [standardizeAdv, h0, hy], hqy, ?_⟩
  rw [sampleVar, hqy, hylen]
  have hmap : y.map (fun b => (b - 0) ^ 2)
      = x.map (fun a => (a - qmean x) ^ 2 * (1 / (sigma * sigma))) := by
    rw [hy, List.map_map]
    congr 1
    funext a
    simp only [Function.comp]
    rw [sub_zero, div_pow, mul_one_div]
    congr 1
    ring
  rw [hmap, sum_map_mul_right, hS]
  field_simp

/-- Witness for C6 (amended) on the batch `[0, 1, 2]`, whose sample variance
is `1` with standard deviation `1`. -/
theorem standardize_nonzero_variance_witness :
    ∃ y, standardizeAdv [0, 1, 2] 1 = some y ∧ qmean y = 0 ∧ sampleVar y = 1 :=
  standardize_nonzero_variance [0, 1, 2] 1 (by norm_num)
    (by norm_num [sampleVar, qmean]) (by norm_num)

/-- C10: In the policy-gradient computation of `agent.py` lines 96-99 the old
probabilities are a detached copy of the very same gathered tensor as the new
probabilities, so (for nonzero probability values) every per-element
importance ratio has value exactly `1`, and the surrogate objective's numeric
value is just the batch mean of the (standardized) advantage — the value
carries no information beyond the advantage mean; only the gradient does. -/
theorem importance_ratio_one (adv : List ℚ) (probs : List Dual)
    (hlen : adv.length = probs.length) (hne : ∀ d ∈ probs, d.val ≠ 0) :
    (∀ d ∈ probs, (Dual.div d (Dual.detach d)).val = 1) ∧
    (surrogateObj adv probs).val = qmean adv := by
  constructor
  · intro d hd
    simp [Dual.div, Dual.detach, div_self (hne d hd)]
  · unfold surrogateObj dmean
    simp only
    rw [val_zipWith_ratio adv probs hlen hne]

/-- Witness for C10 on a concrete two-element batch. -/
theorem importance_ratio_one_witness :
    (∀ d ∈ [(⟨1/2, [1]⟩ : Dual), ⟨1/3, [2]⟩], (Dual.div d (Dual.detach d)).val = 1) ∧
    (surrogateObj [1, 2] [⟨1/2, [1]⟩, ⟨1/3, [2]⟩]).val = qmean [1, 2] :=
  importance_ratio_one [1, 2] [⟨1/2, [1]⟩, ⟨1/3, [2]⟩] (by norm_num)
    (by
      intro d hd
      rcases List.mem_cons.mp hd with h | hd2
      · subst h; norm_num
      · rcases List.mem_cons.mp hd2 with h | h3
        · subst h; norm_num
        · simp at h3)

/-- C4 (corrected), counterexample: the claim says the new action
probabilities are obtained "by evaluating the policy under its current
parameters at update time".  Take the one-parameter policy `sqPolicy`
(gathered probability `t ^ 2` at parameter `[t]`), collection-time parameters
`[1]` and current parameters `[2]` (as after an earlier batch's accepted
update in the same iteration).  The code's gradient (computed from the stored
collection-time tensors, `pgComputed`) is `[-2]`, while the spec-described
gradient (`pgSpec`, evaluating the policy at the current parameters `[2]`
against the collection-time old probabilities) is `[-4]`; the two differ, and
the probabilities at the two parameter vectors differ as well. -/
theorem pg_recomputes_current_params_cex :
    pgComputed [1] (sqPolicy [1]) ≠ pgSpec [1] sqPolicy [2] ((sqPolicy [1]).map Dual.val) ∧
    (sqPolicy [2]).map Dual.val ≠ (sqPolicy [1]).map Dual.val := by
  constructor
  · norm_num [pgComputed, pgSpec, surrogateObj, surrogateObjSpec, sqPolicy, dmean, qmean,
      vecSum, vsmul, vsub, vneg, Dual.div, Dual.detach, Dual.constMul, Dual.divC]
  · norm_num [sqPolicy]

/-- C4 (amended): for every batch the code computes the new action
probabilities by gathering from the probability tensors stored at collection
time — equivalently, the policy evaluated at the collection-time parameters,
not re-evaluated at the current parameters — with the old probabilities a
detached copy of the same tensor; the returned vector is the flattened
gradient of the negative surrogate `mean(advantage * new_prob / old_prob)`,
i.e. the code coincides with the spec's formula exactly when the current
parameters are the collection-time ones. -/
theorem pg_from_collection_params (adv : List ℚ) (pol : Vec → List Dual) (theta : Vec) :
    pgComputed adv (pol theta) = pgSpec adv pol theta ((pol theta).map Dual.val) := by
  unfold pgComputed pgSpec surrogateObj surrogateObjSpec
  rw [zip_spec_eq]

/-- C7: Zero-gradient skip.  If every component of the flattened policy
gradient passes the `numpy.allclose(pg, 0)` test (absolute value at most the
numpy tolerance `1e-8`), the whole per-batch update — conjugate gradient,
step scaling, line search and the parameter write — is skipped (the source
logs a warning, not modeled) and the policy's parameter vector is returned
unchanged. -/
theorem zero_gradient_skip (fvp : Vec → Vec) (lossF : Vec → ℚ) (sqrtFn : ℚ → ℚ)
    (cg_iters : Nat) (cg_tol max_kl accRat : ℚ) (ls_iters : Nat) (pg theta : Vec)
    (h : ∀ a ∈ pg, |a| ≤ 1/100000000) :
    policyUpdate fvp lossF sqrtFn cg_iters cg_tol max_kl accRat ls_iters pg theta = theta := by
  have hb : allcloseZero pg = true := by
    simp only [allcloseZero, List.all_eq_true, decide_eq_true_eq]
    exact h
  simp [policyUpdate, hb]

/-- Witness for C7 with the zero gradient `[0]`. -/
theorem zero_gradient_skip_witness :
    policyUpdate (fun v => v) (fun _ => 0) (fun q => q) 1 (1/10) (1/100) (9/10) 10 [0] [5]
      = [5] :=
  zero_gradient_skip (fun v => v) (fun _ => 0) (fun q => q) 1 (1/10) (1/100) (9/10) 10 [0] [5]
    (by
      intro a ha
      simp only [List.mem_singleton] at ha
      norm_num [ha])

/-- C3: The live policy's parameter vector is written only by the line-search
acceptance path.  In the embedding, surrogate-loss evaluation (`get_loss`) is
a pure function — it reads the live parameters and the candidate but builds
the candidate model as a copy, so evaluation cannot mutate the live vector.
For a batch whose gradient is not numerically zero, the per-batch update
returns the line search's candidate exactly when the search reports success,
returns the input parameter vector exactly when it reports failure, and in
particular when no step fraction passes the acceptance test the search
returns precisely `(false, theta)` and the live parameters are unchanged. -/
theorem live_params_written_iff_success (fvp : Vec → Vec) (lossF : Vec → ℚ)
    (sqrtFn : ℚ → ℚ) (cg_iters : Nat) (cg_tol max_kl accRat : ℚ) (ls_iters : Nat)
    (pg theta : Vec) (hpg : allcloseZero pg = false) :
    let stepdir := cg fvp (vneg pg) cg_iters cg_tol
    let lm := sqrtFn ((1 / 2) * dot stepdir (fvp stepdir) / max_kl)
    let fullstep := vsmul (1 / lm) stepdir
    let eir := (-(dot pg stepdir)) / lm
    let sn := line_search lossF theta fullstep eir accRat ls_iters
    ((sn.1 = true →
        policyUpdate fvp lossF sqrtFn cg_iters cg_tol max_kl accRat ls_iters pg theta = sn.2) ∧
     (sn.1 = false →
        policyUpdate fvp lossF sqrtFn cg_iters cg_tol max_kl accRat ls_iters pg theta = theta) ∧
     ((∀ i, i < ls_iters → ¬ lsAccept lossF theta fullstep eir accRat i) →
        sn = (false, theta) ∧
        policyUpdate fvp lossF sqrtFn cg_iters cg_tol max_kl accRat ls_iters pg theta = theta)) := by
  intro stepdir lm fullstep eir sn
  have hpu : policyUpdate fvp lossF sqrtFn cg_iters cg_tol max_kl accRat ls_iters pg theta
      = if sn.1 then sn.2 else theta := by
    simp only [policyUpdate, hpg, Bool.false_eq_true, if_false]
  refine ⟨fun h1 => ?_, fun h1 => ?_, fun hall => ?_⟩
  · rw [hpu, if_pos h1]
  · rw [hpu]
    simp [h1]
  · have hsn : sn = (false, theta) := by
      show lsLoop lossF theta fullstep eir accRat (lossF theta) ls_iters 0 = (false, theta)
      exact lsLoop_reject lossF theta fullstep eir accRat ls_iters 0
        (fun j _ hj => hall j (by omega))
    refine ⟨hsn, ?_⟩
    rw [hpu, hsn]
    simp

/-- Witness for C3: gradient `[1]` is not numerically zero, the constant-zero
surrogate loss rejects every step fraction, and the parameters are returned
unchanged. -/
theorem live_params_written_iff_success_witness :
    policyUpdate (fun v => v) (fun _ => 0) (fun q => q) 1 (1/10) (1/100) (9/10) 2 [1] [5]
      = [5] := by
  have h := live_params_written_iff_success (fun v => v) (fun _ => 0) (fun q => q) 1 (1/10)
    (1/100) (9/10) 2 [1] [5] (by norm_num [allcloseZero])
  exact (h.2.2 (by intro i hi; norm_num [lsAccept])).2

/-- The operator `opC` used in the C8 counterexample really is symmetric and
positive definite on 3-vectors: it agrees with the diagonal quadratic form
`diag(1, 10, 100)`, and its quadratic form is positive away from zero. -/
theorem opC_symm_posdef :
    (∀ a b c d e f : ℚ, dot (opC [a, b, c]) [d, e, f] = dot [a, b, c] (opC [d, e, f])) ∧
    (∀ a b c : ℚ, ¬ (a = 0 ∧ b = 0 ∧ c = 0) → 0 < dot [a, b, c] (opC [a, b, c])) := by
  constructor
  · intro a b c d e f
    norm_num [opC, dot]
    ring
  · intro a b c h
    norm_num [opC, dot]
    rcases not_and_or.mp h with ha | hbc
    · nlinarith [sq_nonneg a, sq_nonneg b, sq_nonneg c, sq_abs a, abs_pos.mpr ha]
    · rcases not_and_or.mp hbc with hb | hc
      · nlinarith [sq_nonneg a, sq_nonneg b, sq_nonneg c, abs_pos.mpr hb, sq_abs b]
      · nlinarith [sq_nonneg a, sq_nonneg b, sq_nonneg c, abs_pos.mpr hc, sq_abs c]

set_option maxHeartbeats 1000000 in
/-- C8 (corrected), counterexample: the claim's second part asserts that for
a symmetric positive-definite operator the residual norm is non-increasing
between iterations in exact arithmetic.  For the SPD operator `opC`
(`diag(1, 10, 100)`, see `opC_symm_posdef`) and `b = [1, 1, 1/100]`, the
`rdotr` trace of the source's `cg` loop computed in exact rational arithmetic
strictly increases between the first and the second executed iteration
(from `1839871989/1346890000 ≈ 1.37` to `901584189/49984900 ≈ 18.04`). -/
theorem cg_residual_not_monotone_cex :
    (cgT opC [1, 1, 1/100] 10 (1/1000000)).2.2.getD 1 0
      < (cgT opC [1, 1, 1/100] 10 (1/1000000)).2.2.getD 2 0 := by
  norm_num [cgT, cgLoopT, opC, dot, vadd, vsub, vsmul, List.replicate]

/-- C8 (amended): for every linear operator and target vector the `cg` solver
applies the operator at most `cg_iters` times, and it exits the loop as soon
as the residual dot product drops strictly below `cg_tol` — in the residual
trace, every value computed by an iteration other than the final one is at
least `cg_tol`.  (The dropped part of the claim — monotonically non-increasing
residual norms for SPD operators — is refuted by the counterexample.) -/
theorem cg_operator_budget (fvp : Vec → Vec) (b : Vec) (iters : Nat) (tol : ℚ) :
    (cgT fvp b iters tol).2.1 ≤ iters ∧
    (∀ j, 1 ≤ j → j + 1 < (cgT fvp b iters tol).2.2.length →
      tol ≤ (cgT fvp b iters tol).2.2.getD j 0) := by
  constructor
  · exact cgLoopT_count_le fvp tol iters _ _ _ _
  · intro j h1 h2
    match j, h1 with
    | k + 1, _ =>
      simp only [cgT, List.getD_cons_succ]
      apply cgLoopT_trace_ge
      simpa [cgT] using h2

set_option maxHeartbeats 800000 in
/-- Concrete evaluation of the instrumented solver on the C1 test system:
two iterations, residual trace `[68, 119952/6889, 0]`. -/
theorem cgT_opA_eval :
    cgT opA [2, -8] 10 (1/1000000) = ([2, -2], 2, [68, 119952/6889, 0]) := by
  have s2 : cgLoopT opA (1/1000000) 9 [34/83, -(136/83)] [336/83, 84/83]
      [31416/6889, -(7140/6889)] (119952/6889) = ([2, -2], 1, [0]) := by
    show cgLoopT opA (1/1000000) (8 + 1) _ _ _ _ = _
    rw [cgLoopT]
    norm_num [opA, dot, vadd, vsub, vsmul]
  have s1 : cgLoopT opA (1/1000000) 10 [0, 0] [2, -8] [2, -8] 68
      = ([2, -2], 2, [119952/6889, 0]) := by
    show cgLoopT opA (1/1000000) (9 + 1) _ _ _ _ = _
    rw [cgLoopT]
    norm_num [opA, dot, vadd, vsub, vsmul, s2]
  norm_num [cgT, dot, List.replicate, s1]

/-- Witness for C8 (amended) on the concrete run of C1: at most 10 operator
applications, and the one interior residual value is at least the tolerance. -/
theorem cg_operator_budget_witness :
    (cgT opA [2, -8] 10 (1/1000000)).2.1 ≤ 10 ∧
    (1/1000000 : ℚ) ≤ (cgT opA [2, -8] 10 (1/1000000)).2.2.getD 1 0 := by
  refine ⟨(cg_operator_budget opA [2, -8] 10 (1/1000000)).1, ?_⟩
  refine (cg_operator_budget opA [2, -8] 10 (1/1000000)).2 1 le_rfl ?_
  rw [cgT_opA_eval]
  simp
